import Mathlib

/-!
Shallow embedding of the gddb command-line query tool (src/main.rs).

The embedding models, straight from the source:
  * the item-name disambiguator of lookup_item_ids (tokenization on ASCII
    whitespace, token-containment candidate filtering, exact-match
    tie-break, sorted ambiguity listing);
  * the predicate scanner records_by_xpac / iter_records and the
    identifier-only scanner iter_record_ids, over abstract stores whose
    record_id and resolve operations are fallible;
  * get_record and the show command;
  * the ls namespace browser (path components, first-segment labels,
    dedup plus sort);
  * the tag-table merge of read_item_tags (later pack overrides earlier);
  * the item reference finder of lookup_item_ids (items-namespace scan
    filtered on the itemNameTag field).

Process exits are modelled as outcome values carrying the exit code.
-/

namespace Gddb

/-- ASCII whitespace as used by the Rust tokenizer of the item query:
space, tab, line feed, form feed, carriage return. -/
def isAsciiWhitespace (c : Char) : Bool :=
  c = ' ' || c = '\t' || c = '\n' || c = Char.ofNat 12 || c = '\r'

/-- Accumulator-based splitter over a character list: runs of separator
characters delimit maximal nonempty pieces, and empty pieces are dropped.
The accumulator holds the current piece reversed. -/
def splitDrop (sep : Char → Bool) : List Char → List Char → List String
  | [], cur => if cur.isEmpty then [] else [String.mk cur.reverse]
  | c :: cs, cur =>
    if sep c then
      if cur.isEmpty then splitDrop sep cs []
      else String.mk cur.reverse :: splitDrop sep cs []
    else splitDrop sep cs (c :: cur)

/-- Tokenize a query string on ASCII whitespace, dropping empty tokens,
matching the semantics of split_ascii_whitespace. -/
def tokenize (s : String) : List String :=
  splitDrop isAsciiWhitespace s.data []

/-- Substring test on character lists: pat occurs contiguously in hay. -/
def isSubList (pat : List Char) : List Char → Bool
  | [] => pat.isEmpty
  | c :: rest => pat.isPrefixOf (c :: rest) || isSubList pat rest

/-- Case-sensitive substring containment of pat in hay. -/
def strContains (hay pat : String) : Bool :=
  isSubList pat.data hay.data

/-- Lexicographic order on character lists by scalar value, the order in
which Rust compares strings byte-wise on their UTF-8 encodings. -/
def lexLE : List Char → List Char → Bool
  | [], _ => true
  | _ :: _, [] => false
  | a :: as, b :: bs =>
    if a.toNat < b.toNat then true
    else if b.toNat < a.toNat then false
    else lexLE as bs

/-- Boolean ascending comparison of strings. -/
def strLE (a b : String) : Bool :=
  lexLE a.data b.data

/-- Ascending order on strings as a relation. -/
def ascLE (a b : String) : Prop :=
  strLE a b = true

instance : DecidableRel ascLE := fun a b => instDecidableEqBool (strLE a b) true

/-- Ascending sort of a string list, the sort step before the ambiguity
listing of lookup_item_ids and before the ls output. -/
def sortAsc (l : List String) : List String :=
  List.insertionSort ascLE l

/-- Outcome of the item-name disambiguation step of lookup_item_ids.
noMatch and ambiguous correspond to process exits with code 0; unique
carries the chosen (tag key, localized value) pair and lets the command
proceed. -/
inductive ItemOutcome where
  | noMatch : ItemOutcome
  | unique : String → String → ItemOutcome
  | ambiguous : List String → ItemOutcome
deriving DecidableEq

/-- Exit code associated with an item-disambiguation outcome: the early
exits of lookup_item_ids both use code 0; a unique outcome continues. -/
def itemExitCode : ItemOutcome → Option Nat
  | ItemOutcome.noMatch => some 0
  | ItemOutcome.unique _ _ => none
  | ItemOutcome.ambiguous _ => some 0

/-- Diagnostic-stream message of an item-disambiguation outcome. -/
def itemMessage : ItemOutcome → Option String
  | ItemOutcome.noMatch => some "No matching items found"
  | ItemOutcome.unique _ _ => none
  | ItemOutcome.ambiguous _ => none

/-- Candidate (tag key, value) pairs of the disambiguator: every entry of
the tag table whose value contains each whitespace token of the query. -/
def candidates (tags : List (String × String)) (item : String) :
    List (String × String) :=
  tags.filter (fun p => (tokenize item).all (fun tok => strContains p.2 tok))

/-- The disambiguation logic of lookup_item_ids: empty candidate list
reports no match; a unique candidate is taken; among several candidates an
entry whose value equals the query text exactly wins, and otherwise the
candidate values are listed in ascending order. -/
def disambiguate (tags : List (String × String)) (item : String) :
    ItemOutcome :=
  let possible := candidates tags item
  if possible.length = 0 then ItemOutcome.noMatch
  else if 1 < possible.length then
    match possible.find? (fun p => p.2 == item) with
    | some em => ItemOutcome.unique em.1 em.2
    | none =>
      ItemOutcome.ambiguous (sortAsc (possible.map Prod.snd))
  else
    match possible.getLast? with
    | some p => ItemOutcome.unique p.1 p.2
    | none => ItemOutcome.noMatch

/-- Typed field value of a resolved record; the query engine only inspects
the string variant (field itemNameTag), other variants are carried opaquely. -/
inductive DatabaseValue where
  | Str : String → DatabaseValue
  | IntV : Int → DatabaseValue
deriving DecidableEq

/-- A resolved database record: its identifier and its merged field map,
modelled as an association list from field name to typed value. -/
structure Record where
  id : String
  data : List (String × DatabaseValue)
deriving DecidableEq

/-- One opened record store of a content pack. Enumeration of raw records
is a list; identifier derivation and raw-to-resolved transformation are the
fallible external operations record_id and resolve of the store handle.
The raw record type rho is abstract. -/
structure Store (ρ : Type) where
  raws : List ρ
  record_id : ρ → Except String String
  resolve : ρ → Except String Record

/-- Collect a list of fallible results into one fallible list, stopping at
the first error, as Rust collect over Result does. -/
def collectExcept {ε α : Type} : List (Except ε α) → Except ε (List α)
  | [] => Except.ok []
  | x :: xs =>
    match x with
    | Except.error e => Except.error e
    | Except.ok a => (collectExcept xs).map (fun ys => a :: ys)

/-- Per-store body of records_by_xpac: for each raw record derive the
identifier, silently dropping records whose derivation fails, keep the
predicate matches and resolve them, each resolution being fallible. -/
def scanStore {ρ : Type} (db : Store ρ) (p : String → ρ → Bool) :
    List (Except String Record) :=
  db.raws.filterMap (fun raw =>
    match db.record_id raw with
    | Except.error _ => none
    | Except.ok i => if p i raw then some (db.resolve raw) else none)

/-- The predicate scanner: per-store lists of resolved matches in selection
order, failing on the first resolution error. -/
def records_by_xpac {ρ : Type} (dbs : List (Store ρ))
    (p : String → ρ → Bool) : Except String (List (List Record)) :=
  collectExcept (dbs.map (fun db => collectExcept (scanStore db p)))

/-- Flattened predicate scan, concatenating the stores in selection order. -/
def iter_records {ρ : Type} (dbs : List (Store ρ))
    (p : String → ρ → Bool) : Except String (List Record) :=
  (records_by_xpac dbs p).map List.flatten

/-- The identifier-only scanner: derives every record identifier of every
store, failing on the first derivation error, and flattens in selection
order. -/
def iter_record_ids {ρ : Type} (dbs : List (Store ρ)) :
    Except String (List String) :=
  (collectExcept (dbs.map (fun db =>
    collectExcept (db.raws.map db.record_id)))).map List.flatten

/-- Exit code of a failed scan: any error of the two scanners aborts the
process with code 1. -/
def scanExitCode {α : Type} : Except String α → Option Nat
  | Except.error _ => some 1
  | Except.ok _ => none

/-- Identifiers successfully derivable from the raw records of one store,
in enumeration order. -/
def storeIds {ρ : Type} (db : Store ρ) : List String :=
  db.raws.filterMap (fun raw => (db.record_id raw).toOption)

/-- The per-store scan outcome when every resolution of a matched record
succeeds: the resolved records of the raws whose derived identifier passes
the predicate, records with failing derivation silently dropped. -/
def goodScan {ρ : Type} (db : Store ρ) (p : String → ρ → Bool) :
    List Record :=
  db.raws.filterMap (fun raw =>
    match db.record_id raw with
    | Except.error _ => none
    | Except.ok i => if p i raw then (db.resolve raw).toOption else none)

/-- Result of get_record: either the not-found failure carrying the
diagnostic message, or a located record together with the flag telling
whether the duplicate warning was emitted. -/
inductive ShowResult where
  | notFound : String → ShowResult
  | found : Bool → Record → ShowResult
deriving DecidableEq

/-- Exit code of a get_record outcome: not-found exits with code 1, a
located record lets the command continue and print. -/
def showExitCode : ShowResult → Option Nat
  | ShowResult.notFound _ => some 1
  | ShowResult.found _ _ => none

/-- The get_record lookup of the show command: scan for records whose
identifier equals the needle; empty result is the fatal not-found path,
more than one match warns and the last match in selection order is kept. -/
def get_record {ρ : Type} (dbs : List (Store ρ)) (needle : String) :
    Except String ShowResult :=
  (iter_records dbs (fun i _ => i == needle)).map (fun ms =>
    match ms.getLast? with
    | none => ShowResult.notFound ("not found: " ++ needle)
    | some r => ShowResult.found (decide (1 < ms.length)) r)

/-- Character-level test that pre leads s, the byte-prefix test of the
source on UTF-8 strings. -/
def strStarts (s pre : String) : Bool :=
  pre.data.isPrefixOf s.data

/-- The reference-collection step of lookup_item_ids: scan the items
namespace, keep records whose itemNameTag field holds the tag key as a
string value, and collect their identifiers deduplicated. -/
def lookup_item_refs {ρ : Type} (dbs : List (Store ρ)) (tag : String) :
    Except String (List String) :=
  (iter_records dbs (fun i _ => strStarts i "records/items")).map
    (fun rs =>
      (((rs.filter (fun r =>
        r.data.lookup "itemNameTag" == some (DatabaseValue.Str tag))).map
          Record.id)).dedup)

/-- Path components of a record identifier: split on the separator and
drop empty segments, matching component iteration of a relative path. -/
def pathComponents (s : String) : List String :=
  splitDrop (fun c => c == '/') s.data []

/-- Component-wise removal of a leading path: the remainder when pre is a
component prefix of the path, none otherwise. -/
def stripPreComps (pre comps : List String) : Option (List String) :=
  if pre.isPrefixOf comps then some (comps.drop pre.length) else none

/-- Label contributed by one identifier to the ls listing: strip the
optional prefix component-wise (dropping identifiers it does not lead),
take the first remaining segment, and append the separator exactly when
further segments follow; an identifier equal to the prefix yields none. -/
def lsLabel (pre? : Option String) (id : String) : Option String :=
  let comps := pathComponents id
  let comps? :=
    match pre? with
    | some pre => stripPreComps (pathComponents pre) comps
    | none => some comps
  match comps? with
  | none => none
  | some [] => none
  | some [x] => some x
  | some (x :: _ :: _) => some (x ++ "/")

/-- The ls namespace browser over a flat identifier list: per-identifier
labels, deduplicated and sorted ascending. -/
def ls (ids : List String) (pre? : Option String) : List String :=
  sortAsc ((ids.filterMap (lsLabel pre?)).dedup)

/-- Extend one tag table with another, the second overriding the first on
key collision, as HashMap extend does: keyed lookups prefer the second. -/
def hmExtend (acc t : List (String × String)) : List (String × String) :=
  acc.filter (fun p => ((t.lookup p.1).isNone : Bool)) ++ t

/-- The merge of read_item_tags: fold the per-pack tag tables left to
right in ascending pack order, later tables overriding earlier ones; an
empty table list is the fatal no-resource path. -/
def read_item_tags (tables : List (List (String × String))) :
    Option (List (String × String)) :=
  match tables with
  | [] => none
  | t :: rest => some (rest.foldl hmExtend t)

/-- Specification-side lookup over a table list: the value of the key in
the last table of the list that binds it. -/
def lastLookup (tables : List (List (String × String))) (k : String) :
    Option String :=
  tables.foldl (fun r t =>
    match t.lookup k with
    | some v => some v
    | none => r) none

/-- Example store whose single raw record fails identifier derivation. -/
def badIdStore : Store Unit :=
  ⟨[()], fun _ => Except.error "bad id", fun _ => Except.ok ⟨"x", []⟩⟩

/-- Example store over string raws: the raw is its own identifier and
resolves to a record carrying an itemNameTag field. -/
def itemStore : Store String :=
  ⟨["records/items/a", "other/x"], fun s => Except.ok s,
    fun s => Except.ok ⟨s, [("itemNameTag", DatabaseValue.Str "t1")]⟩⟩

/-- Example store over string raws holding a single record x with no
fields. -/
def plainStore : Store String :=
  ⟨["x"], fun s => Except.ok s, fun s => Except.ok ⟨s, []⟩⟩

theorem lexLE_total (as : List Char) : ∀ bs,
    lexLE as bs = true ∨ lexLE bs as = true := by
  induction as with
  | nil => intro bs; left; rfl
  | cons a as ih =>
    intro bs
    cases bs with
    | nil => right; rfl
    | cons b bs =>
      by_cases hab : a.toNat < b.toNat
      · left; simp [lexLE, hab]
      · by_cases hba : b.toNat < a.toNat
        · right; simp [lexLE, hba]
        · rcases ih bs with h | h
          · left; simp [lexLE, hab, hba, h]
          · right; simp [lexLE, hab, hba, h]

theorem lexLE_trans (as : List Char) : ∀ bs cs,
    lexLE as bs = true → lexLE bs cs = true → lexLE as cs = true := by
  induction as with
  | nil => intro bs cs _ _; rfl
  | cons a as ih =>
    intro bs cs h1 h2
    cases bs with
    | nil => simp [lexLE] at h1
    | cons b bs =>
      cases cs with
      | nil => simp [lexLE] at h2
      | cons c cs =>
        simp only [lexLE] at h1 h2 ⊢
        split at h1
        · split at h2
          · simp [show a.toNat < c.toNat by omega]
          · split at h2
            · exact absurd h2 (by simp)
            · simp [show a.toNat < c.toNat by omega]
        · split at h1
          · exact absurd h1 (by simp)
          · split at h2
            · simp [show a.toNat < c.toNat by omega]
            · split at h2
              · exact absurd h2 (by simp)
              · have hac : ¬ a.toNat < c.toNat := by omega
                have hca : ¬ c.toNat < a.toNat := by omega
                simp [hac, hca]
                exact ih bs cs h1 h2

instance : IsTotal String ascLE :=
  ⟨fun a b => lexLE_total a.data b.data⟩

instance : IsTrans String ascLE :=
  ⟨fun a b c => lexLE_trans a.data b.data c.data⟩

theorem sortAsc_sorted (l : List String) : (sortAsc l).Sorted ascLE :=
  List.sorted_insertionSort ascLE l

theorem sortAsc_perm (l : List String) : List.Perm (sortAsc l) l :=
  List.perm_insertionSort ascLE l

theorem isSubList_iff (pat : List Char) : ∀ l,
    isSubList pat l = true ↔ pat <:+: l := by
  intro l
  induction l with
  | nil =>
    simp [isSubList, List.isEmpty_iff]
  | cons c rest ih =>
    simp only [isSubList, Bool.or_eq_true, ih]
    rw [ List.infix_cons_iff]
    constructor
    · rintro (h | h)
      · left; exact List.isPrefixOf_iff_prefix.mp h
      · right; exact h
    · rintro (h | h)
      · left; exact List.isPrefixOf_iff_prefix.mpr h
      · right; exact h

theorem find_of_filter_singleton {α : Type} (p : α → Bool) (c : α) :
    ∀ l : List α, l.filter p = [c] → l.find? p = some c := by
  intro l
  induction l with
  | nil => intro h; simp at h
  | cons a l ih =>
    intro h
    rw [List.filter_cons] at h
    by_cases hp : p a
    · simp [hp] at h
      rcases h with ⟨rfl, h2⟩
      simp [List.find?, hp]
    · simp [hp] at h
      simp [List.find?, hp]
      exact ih h

theorem mem_candidates (tags : List (String × String)) (item : String)
    (c : String × String) :
    c ∈ candidates tags item ↔
      c ∈ tags ∧ ∀ tok ∈ tokenize item, tok.data <:+: c.2.data := by
  simp [candidates, List.mem_filter, strContains, isSubList_iff]

theorem disambiguate_single (tags : List (String × String)) (item : String)
    (c : String × String) (h : candidates tags item = [c]) :
    disambiguate tags item = ItemOutcome.unique c.1 c.2 := by
  simp [disambiguate, h]

theorem disambiguate_noMatch (tags : List (String × String)) (item : String)
    (h : candidates tags item = []) :
    disambiguate tags item = ItemOutcome.noMatch := by
  simp [disambiguate, h]

theorem disambiguate_exact (tags : List (String × String)) (item : String)
    (c : String × String)
    (hlen : 1 < (candidates tags item).length)
    (hone : (candidates tags item).filter (fun p => p.2 == item) = [c]) :
    disambiguate tags item = ItemOutcome.unique c.1 c.2 := by
  have h0 : ¬ (candidates tags item).length = 0 := by omega
  simp only [disambiguate, h0, if_false, hlen, if_true]
  rw [find_of_filter_singleton _ c _ hone]

theorem disambiguate_ambiguous (tags : List (String × String)) (item : String)
    (hlen : 1 < (candidates tags item).length)
    (hnone : ∀ c ∈ candidates tags item, c.2 ≠ item) :
    disambiguate tags item =
      ItemOutcome.ambiguous (sortAsc ((candidates tags item).map Prod.snd)) := by
  have h0 : ¬ (candidates tags item).length = 0 := by omega
  have hfind : (candidates tags item).find? (fun p => p.2 == item) = none := by
    rw [List.find?_eq_none]
    intro x hx
    simp [hnone x hx]
  simp only [disambiguate, h0, if_false, hlen, if_true, hfind]

/-- C2: the candidate set of the item disambiguator is exactly the set of
(key, value) pairs of the tag table whose value contains every ASCII
whitespace token of the query as a case-sensitive contiguous substring,
and when the candidate list has exactly one element the disambiguator
returns that element as the answer. -/
theorem item_candidates_and_unique (tags : List (String × String))
    (item : String) :
    (∀ c, c ∈ candidates tags item ↔
      c ∈ tags ∧ ∀ tok ∈ tokenize item, tok.data <:+: c.2.data) ∧
    (∀ c, candidates tags item = [c] →
      disambiguate tags item = ItemOutcome.unique c.1 c.2) := by
  constructor
  · intro c; exact mem_candidates tags item c
  · intro c h; exact disambiguate_single tags item c h

/-- C3: when the disambiguator has more than one candidate and exactly one
candidate whose value equals the full query text character for character,
it returns that exact-match candidate instead of reporting ambiguity. -/
theorem item_exact_tiebreak (tags : List (String × String)) (item : String)
    (c : String × String)
    (hlen : 1 < (candidates tags item).length)
    (hone : (candidates tags item).filter (fun p => p.2 == item) = [c]) :
    disambiguate tags item = ItemOutcome.unique c.1 c.2 :=
  disambiguate_exact tags item c hlen hone

/-- C3 witness: the spec example, where the query Relic of the Ancients is
a substring of both table values but equals exactly one of them. -/
theorem item_exact_tiebreak_witness :
    disambiguate
        [("t1", "Relic of the Ancients"), ("t2", "Relic of the Ancients Rare")]
        "Relic of the Ancients" =
      ItemOutcome.unique "t1" "Relic of the Ancients" :=
  item_exact_tiebreak
    [("t1", "Relic of the Ancients"), ("t2", "Relic of the Ancients Rare")]
    "Relic of the Ancients" ("t1", "Relic of the Ancients")
    (by decide) (by decide)

/-- C4 counterexample: a table whose two entries share the value A, queried
with A. Both entries are candidates and both are exact matches, so there is
no unique exact match, yet the disambiguator returns the first exact match
instead of listing the candidates and exiting. -/
theorem item_ambiguity_exit_cx :
    candidates [("t1", "A"), ("t2", "A")] "A" = [("t1", "A"), ("t2", "A")] ∧
    (candidates [("t1", "A"), ("t2", "A")] "A").filter
        (fun p => p.2 == "A") = [("t1", "A"), ("t2", "A")] ∧
    disambiguate [("t1", "A"), ("t2", "A")] "A" =
      ItemOutcome.unique "t1" "A" :=
  ⟨by decide, by decide, by decide⟩

/-- C4 amended: zero candidates yields the no-match outcome with the
message on the diagnostic stream and exit code 0; more than one candidate
with no exact match at all yields the ambiguity listing of every candidate
value in ascending order with exit code 0; when at least one candidate
value equals the query exactly, the first such candidate is selected
instead. -/
theorem item_outcomes (tags : List (String × String)) (item : String) :
    (candidates tags item = [] →
      disambiguate tags item = ItemOutcome.noMatch ∧
      itemExitCode ItemOutcome.noMatch = some 0 ∧
      itemMessage ItemOutcome.noMatch = some "No matching items found") ∧
    (1 < (candidates tags item).length →
      (∀ c ∈ candidates tags item, c.2 ≠ item) →
      disambiguate tags item =
        ItemOutcome.ambiguous (sortAsc ((candidates tags item).map Prod.snd)) ∧
      (sortAsc ((candidates tags item).map Prod.snd)).Sorted ascLE ∧
      List.Perm (sortAsc ((candidates tags item).map Prod.snd))
        ((candidates tags item).map Prod.snd) ∧
      itemExitCode
        (ItemOutcome.ambiguous
          (sortAsc ((candidates tags item).map Prod.snd))) = some 0) := by
  constructor
  · intro h
    exact ⟨disambiguate_noMatch tags item h, rfl, rfl⟩
  · intro hlen hnone
    exact ⟨disambiguate_ambiguous tags item hlen hnone,
      sortAsc_sorted _, sortAsc_perm _, rfl⟩

/-- C10 counterexample: against the table with values empty string and x,
the empty query makes every entry a candidate, but the entry whose value is
the empty string equals the query exactly, so the disambiguator returns it
instead of reporting ambiguity with every tag value listed. -/
theorem empty_query_cx :
    tokenize "" = [] ∧
    candidates [("a", ""), ("b", "x")] "" = [("a", ""), ("b", "x")] ∧
    disambiguate [("a", ""), ("b", "x")] "" = ItemOutcome.unique "a" "" :=
  ⟨rfl, by decide, by decide⟩

/-- C10 amended: an empty or whitespace-only query tokenizes to no tokens,
so every table entry is a candidate and a nonempty table never yields the
no-match outcome; a single-entry table resolves to that entry, and a larger
table yields the ambiguity listing of every tag value unless some value
equals the query text exactly, in which case the first such entry is
selected by the exact-match tie-break. -/
theorem empty_query_behavior (tags : List (String × String)) (item : String)
    (hws : ∀ c ∈ item.data, isAsciiWhitespace c = true) :
    tokenize item = [] ∧
    candidates tags item = tags ∧
    (tags ≠ [] → disambiguate tags item ≠ ItemOutcome.noMatch) ∧
    (∀ t, tags = [t] → disambiguate tags item = ItemOutcome.unique t.1 t.2) ∧
    (1 < tags.length → (∀ p ∈ tags, p.2 ≠ item) →
      disambiguate tags item =
        ItemOutcome.ambiguous (sortAsc (tags.map Prod.snd))) := by
  have htok : tokenize item = [] := by
    have : ∀ cs, (∀ c ∈ cs, isAsciiWhitespace c = true) →
        splitDrop isAsciiWhitespace cs [] = [] := by
      intro cs
      induction cs with
      | nil => intro _; rfl
      | cons c cs ih =>
        intro h
        have hc := h c (by simp)
        simp only [splitDrop, hc, if_true, List.isEmpty_nil]
        exact ih (fun x hx => h x (by simp [hx]))
    exact this item.data hws
  have hcand : candidates tags item = tags := by
    simp [candidates, htok, List.filter_eq_self]
  refine ⟨htok, hcand, ?_, ?_, ?_⟩
  · intro hne
    have hcne : candidates tags item ≠ [] := by rw [hcand]; exact hne
    rcases hcs : candidates tags item with _ | ⟨c1, cs⟩
    · exact absurd hcs hcne
    · rcases cs with _ | ⟨c2, cs2⟩
      · rw [disambiguate_single tags item c1 hcs]
        simp
      · have hlen : 1 < (candidates tags item).length := by
          rw [hcs]; simp
        by_cases hex : ∀ c ∈ candidates tags item, c.2 ≠ item
        · rw [disambiguate_ambiguous tags item hlen hex]
          simp
        · push_neg at hex
          rcases hex with ⟨c, hc, hceq⟩
          have h0 : ¬ (candidates tags item).length = 0 := by omega
          rcases hf : (candidates tags item).find? (fun p => p.2 == item)
            with _ | em
          · rw [List.find?_eq_none] at hf
            exact absurd (by simp [hceq] : (c.2 == item) = true)
              (by simpa using hf c hc)
          · simp only [disambiguate, h0, if_false, hlen, if_true, hf]
            simp
  · intro t ht
    exact disambiguate_single tags item t (by rw [hcand, ht])
  · intro hlen hnone
    have := disambiguate_ambiguous tags item (by rw [hcand]; exact hlen)
      (by rw [hcand]; exact hnone)
    rw [this, hcand]

/-- C10 amended witness: a one-space query against a two-entry table with
no empty value lists both values in ascending order. -/
theorem empty_query_behavior_witness :
    tokenize " " = [] ∧
    candidates [("t1", "b"), ("t2", "a")] " " = [("t1", "b"), ("t2", "a")] ∧
    ([("t1", "b"), ("t2", "a")] ≠ ([] : List (String × String)) →
      disambiguate [("t1", "b"), ("t2", "a")] " " ≠ ItemOutcome.noMatch) ∧
    (∀ t, [("t1", "b"), ("t2", "a")] = [t] →
      disambiguate [("t1", "b"), ("t2", "a")] " " =
        ItemOutcome.unique t.1 t.2) ∧
    (1 < ([("t1", "b"), ("t2", "a")] : List (String × String)).length →
      (∀ p ∈ ([("t1", "b"), ("t2", "a")] : List (String × String)),
        p.2 ≠ " ") →
      disambiguate [("t1", "b"), ("t2", "a")] " " =
        ItemOutcome.ambiguous
          (sortAsc ([("t1", "b"), ("t2", "a")].map Prod.snd))) :=
  empty_query_behavior [("t1", "b"), ("t2", "a")] " " (by decide)

theorem lookup_hmExtend (t : List (String × String)) (k : String) :
    ∀ acc, (hmExtend acc t).lookup k =
      match t.lookup k with
      | some v => some v
      | none => acc.lookup k := by
  intro acc
  induction acc with
  | nil =>
    simp only [hmExtend, List.filter_nil, List.nil_append]
    cases t.lookup k <;> simp
  | cons p acc ih =>
    obtain ⟨a, b⟩ := p
    simp only [hmExtend, List.filter_cons] at ih ⊢
    by_cases hp : (t.lookup a).isNone = true
    · rw [if_pos hp, List.cons_append, List.lookup_cons]
      by_cases hk : (k == a) = true
      · have ht : t.lookup k = none := by
          have hk' : k = a := by simpa using hk
          rw [hk']
          exact Option.isNone_iff_eq_none.mp hp
        simp [hk, ht, List.lookup_cons]
      · simp only [hk, Bool.false_eq_true, if_false, ih]
        rw [List.lookup_cons]
        simp [hk]
    · rw [if_neg hp, ih]
      by_cases hk : (k == a) = true
      · have hk' : k = a := by simpa using hk
        rcases ht : t.lookup k with _ | v
        · rw [hk'] at ht
          simp [ht] at hp
        · simp [ht]
      · rcases ht : t.lookup k with _ | v
        · simp [ht, List.lookup_cons, hk]
        · simp [ht]

theorem foldl_hmExtend_lookup (k : String) : ∀ (rest : List (List (String × String)))
    (acc : List (String × String)),
    (rest.foldl hmExtend acc).lookup k =
      rest.foldl (fun r t =>
        match t.lookup k with
        | some v => some v
        | none => r) (acc.lookup k) := by
  intro rest
  induction rest with
  | nil => intro acc; rfl
  | cons t rest ih =>
    intro acc
    simp only [List.foldl_cons]
    rw [ih (hmExtend acc t), lookup_hmExtend]

/-- C7: the merged tag table is the left-to-right fold of the per-pack
tables in ascending pack order; a key bound by a later table gets that
later value, a key unbound later keeps the earlier value, and the lookup
over the merge equals the last-table-wins lookup over the whole list; in
particular with packs 0 and 1 sharing a key, the pack-1 value wins. -/
theorem tag_merge_override (tables : List (List (String × String)))
    (m : List (String × String)) (k : String)
    (h : read_item_tags tables = some m) :
    m.lookup k = lastLookup tables k ∧
    (∀ t0 t1, tables = [t0, t1] → ∀ v, t1.lookup k = some v →
      m.lookup k = some v) := by
  rcases tables with _ | ⟨t, rest⟩
  · simp [read_item_tags] at h
  · simp only [read_item_tags, Option.some.injEq] at h
    subst h
    constructor
    · rw [foldl_hmExtend_lookup]
      simp only [lastLookup, List.foldl_cons]
      rcases t.lookup k with _ | v <;> rfl
    · rintro t0 t1 heq v hv
      have ht : t = t0 := by
        have := congrArg (fun l => l.headI) heq
        simpa using this
      have hr : rest = [t1] := by
        have := congrArg (fun l => l.tail) heq
        simpa using this
      subst ht
      rw [hr]
      simp only [List.foldl_cons, List.foldl_nil]
      rw [lookup_hmExtend, hv]

/-- C7 witness: two concrete single-key tables sharing the key k; the
merge of pack 0 then pack 1 looks up to the pack-1 value. -/
theorem tag_merge_override_witness :
    (hmExtend [("k", "v0")] [("k", "v1"), ("k0only", "w")]).lookup "k" =
        lastLookup [[("k", "v0")], [("k", "v1"), ("k0only", "w")]] "k" ∧
    (∀ t0 t1,
      [[("k", "v0")], [("k", "v1"), ("k0only", "w")]] = [t0, t1] →
      ∀ v, t1.lookup "k" = some v →
        (hmExtend [("k", "v0")] [("k", "v1"), ("k0only", "w")]).lookup "k" =
          some v) :=
  tag_merge_override [[("k", "v0")], [("k", "v1"), ("k0only", "w")]]
    (hmExtend [("k", "v0")] [("k", "v1"), ("k0only", "w")]) "k" rfl

/-- Specification-side prefix stripping for the ls listing: the remaining
components of an identifier when the optional prefix is a component-wise
prefix of it, stated with the mathematical prefix relation. -/
def lsStripSpec (pre? : Option String) (id : String) : Option (List String) :=
  match pre? with
  | none => some (pathComponents id)
  | some pre =>
    if pathComponents pre <+: pathComponents id then
      some ((pathComponents id).drop (pathComponents pre).length)
    else none

theorem stripPreComps_eq (pre comps : List String) :
    stripPreComps pre comps =
      if pre <+: comps then some (comps.drop pre.length) else none := by
  simp only [stripPreComps]
  by_cases h : pre <+: comps
  · rw [if_pos (List.isPrefixOf_iff_prefix.mpr h), if_pos h]
  · rw [if_neg (fun hb => h (List.isPrefixOf_iff_prefix.mp hb)), if_neg h]

theorem lsLabel_eq (pre? : Option String) (id : String) :
    lsLabel pre? id =
      match lsStripSpec pre? id with
      | none => none
      | some [] => none
      | some (seg :: rest) =>
          some (if rest = [] then seg else seg ++ "/") := by
  have hstrip : lsStripSpec pre? id =
      match pre? with
      | none => some (pathComponents id)
      | some pre => stripPreComps (pathComponents pre) (pathComponents id) := by
    cases pre? with
    | none => rfl
    | some pre => simp [lsStripSpec, stripPreComps_eq]
  rw [hstrip]
  simp only [lsLabel]
  rcases pre? with _ | pre
  · rcases h2 : pathComponents id with _ | ⟨seg, _ | ⟨s2, rest2⟩⟩ <;>
      simp [h2]
  · rcases h2 : stripPreComps (pathComponents pre) (pathComponents id)
      with _ | ⟨_ | ⟨seg, _ | ⟨s2, rest2⟩⟩⟩ <;> simp [h2]

theorem lsLabel_eq_some (pre? : Option String) (id : String) (x : String) :
    lsLabel pre? id = some x ↔
      ∃ seg rest, lsStripSpec pre? id = some (seg :: rest) ∧
        x = if rest = [] then seg else seg ++ "/" := by
  rw [lsLabel_eq]
  rcases h : lsStripSpec pre? id with _ | ⟨_ | ⟨seg, rest⟩⟩
  · simp
  · simp
  · simp only [Option.some.injEq]
    constructor
    · intro h2
      exact ⟨seg, rest, rfl, h2.symm⟩
    · rintro ⟨s1, r1, he, h3⟩
      rw [List.cons.injEq] at he
      obtain ⟨rfl, rfl⟩ := he
      exact h3.symm

/-- C6: the ls output is a deduplicated, ascending sorted list whose
members are exactly the labels of the identifiers led by the prefix: the
first path segment remaining after component-wise prefix stripping, with
the separator appended exactly when further segments follow; identifiers
not led by the prefix, and the identifier equal to the prefix itself,
contribute nothing. -/
theorem ls_spec (ids : List String) (pre? : Option String) :
    (ls ids pre?).Sorted ascLE ∧
    (ls ids pre?).Nodup ∧
    (∀ x, x ∈ ls ids pre? ↔ ∃ id ∈ ids, ∃ seg rest,
      lsStripSpec pre? id = some (seg :: rest) ∧
      x = if rest = [] then seg else seg ++ "/") := by
  refine ⟨sortAsc_sorted _, ?_, ?_⟩
  · exact ((sortAsc_perm _).nodup_iff).mpr (List.nodup_dedup _)
  · intro x
    rw [ls, (sortAsc_perm _).mem_iff, List.mem_dedup, List.mem_filterMap]
    constructor
    · rintro ⟨id, hid, hlab⟩
      rcases (lsLabel_eq_some pre? id x).mp hlab with ⟨seg, rest, h1, h2⟩
      exact ⟨id, hid, seg, rest, h1, h2⟩
    · rintro ⟨id, hid, seg, rest, h1, h2⟩
      exact ⟨id, hid, (lsLabel_eq_some pre? id x).mpr ⟨seg, rest, h1, h2⟩⟩

theorem collectExcept_map_ok {ε α : Type} : ∀ xs : List α,
    collectExcept (xs.map (Except.ok : α → Except ε α)) = Except.ok xs := by
  intro xs
  induction xs with
  | nil => rfl
  | cons a xs ih => simp [collectExcept, ih, Except.map]

theorem collectExcept_all_ok {ε α : Type} :
    ∀ es : List (Except ε α), (∀ e ∈ es, e.isOk = true) →
      collectExcept es = Except.ok (es.filterMap Except.toOption) := by
  intro es
  induction es with
  | nil => intro _; rfl
  | cons e es ih =>
    intro h
    rcases e with err | a
    · have hbad := h (Except.error err) (List.mem_cons_self _ _)
      simp [Except.isOk, Except.toBool] at hbad
    · simp only [collectExcept, ih (fun x hx => h x (by simp [hx])),
        Except.map, List.filterMap_cons, Except.toOption]

theorem collectExcept_eq_ok {ε α : Type} :
    ∀ es : List (Except ε α), ∀ xs, collectExcept es = Except.ok xs →
      xs = es.filterMap Except.toOption ∧ ∀ e ∈ es, e.isOk = true := by
  intro es
  induction es with
  | nil =>
    intro xs h
    simp only [collectExcept, Except.ok.injEq] at h
    simp [h.symm]
  | cons e es ih =>
    intro xs h
    rcases e with err | a
    · simp [collectExcept] at h
    · simp only [collectExcept] at h
      rcases hc : collectExcept es with err2 | ys
      · rw [hc] at h; simp [Except.map] at h
      · rw [hc] at h
        simp only [Except.map, Except.ok.injEq] at h
        rcases ih ys hc with ⟨h1, h2⟩
        constructor
        · rw [h.symm, h1]
          simp [List.filterMap_cons, Except.toOption]
        · intro x hx
          rcases hx with _ | hx
          · simp [Except.isOk, Except.toBool]
          · exact h2 x (by assumption)

theorem collectExcept_has_error {ε α : Type} :
    ∀ es : List (Except ε α), ∀ e ∈ es, e.isOk = false →
      ∃ err, collectExcept es = Except.error err := by
  intro es
  induction es with
  | nil => intro e he _; simp at he
  | cons x es ih =>
    intro e he hbad
    rcases x with err | a
    · exact ⟨err, rfl⟩
    · rcases he with _ | he
      · simp [Except.isOk, Except.toBool] at hbad
      · rcases ih e (by assumption) hbad with ⟨err, herr⟩
        refine ⟨err, ?_⟩
        simp [collectExcept, herr, Except.map]

theorem mem_scanStore {ρ : Type} {db : Store ρ} {p : String → ρ → Bool}
    {e : Except String Record} :
    e ∈ scanStore db p ↔
      ∃ raw ∈ db.raws, ∃ i, db.record_id raw = Except.ok i ∧
        p i raw = true ∧ e = db.resolve raw := by
  simp only [scanStore, List.mem_filterMap]
  constructor
  · rintro ⟨raw, hraw, hf⟩
    rcases hri : db.record_id raw with err | i
    · rw [hri] at hf; simp at hf
    · rw [hri] at hf
      by_cases hp : p i raw
      · simp only [hp, if_true, Option.some.injEq] at hf
        exact ⟨raw, hraw, i, hri, hp, hf.symm⟩
      · simp [hp] at hf
  · rintro ⟨raw, hraw, i, hri, hp, rfl⟩
    exact ⟨raw, hraw, by rw [hri]; simp [hp]⟩

theorem mem_goodScan {ρ : Type} {db : Store ρ} {p : String → ρ → Bool}
    {r : Record} :
    r ∈ goodScan db p ↔
      ∃ raw ∈ db.raws, ∃ i, db.record_id raw = Except.ok i ∧
        p i raw = true ∧ db.resolve raw = Except.ok r := by
  simp only [goodScan, List.mem_filterMap]
  constructor
  · rintro ⟨raw, hraw, hf⟩
    rcases hri : db.record_id raw with err | i
    · rw [hri] at hf; simp at hf
    · rw [hri] at hf
      by_cases hp : p i raw
      · simp only [hp, if_true] at hf
        rcases hrv : db.resolve raw with err2 | r2
        · rw [hrv] at hf; simp [Except.toOption] at hf
        · rw [hrv] at hf
          simp only [Except.toOption, Option.some.injEq] at hf
          exact ⟨raw, hraw, i, hri, hp, by rw [hrv, hf]⟩
      · simp [hp] at hf
  · rintro ⟨raw, hraw, i, hri, hp, hrv⟩
    exact ⟨raw, hraw, by rw [hri]; simp [hp, hrv, Except.toOption]⟩

theorem collect_scanStore {ρ : Type} (db : Store ρ) (p : String → ρ → Bool)
    (hres : ∀ raw ∈ db.raws, ∀ i, db.record_id raw = Except.ok i →
      p i raw = true → (db.resolve raw).isOk = true) :
    collectExcept (scanStore db p) = Except.ok (goodScan db p) := by
  rw [collectExcept_all_ok]
  · congr 1
    simp only [scanStore, goodScan, List.filterMap_filterMap]
    apply List.filterMap_congr
    intro raw _
    rcases hri : db.record_id raw with err | i
    · rfl
    · by_cases hp : p i raw
      · simp [hp]
      · simp [hp]
  · intro e he
    rcases mem_scanStore.mp he with ⟨raw, hraw, i, hri, hp, rfl⟩
    exact hres raw hraw i hri hp

theorem records_by_xpac_ok {ρ : Type} (dbs : List (Store ρ))
    (p : String → ρ → Bool)
    (hres : ∀ db ∈ dbs, ∀ raw ∈ db.raws, ∀ i, db.record_id raw = Except.ok i →
      p i raw = true → (db.resolve raw).isOk = true) :
    records_by_xpac dbs p = Except.ok (dbs.map (fun db => goodScan db p)) := by
  unfold records_by_xpac
  have h : dbs.map (fun db => collectExcept (scanStore db p)) =
      (dbs.map (fun db => goodScan db p)).map Except.ok := by
    rw [List.map_map]
    exact List.map_congr_left (fun db hdb =>
      collect_scanStore db p (hres db hdb))
  rw [h]
  exact collectExcept_map_ok _

theorem iter_records_ok {ρ : Type} (dbs : List (Store ρ))
    (p : String → ρ → Bool)
    (hres : ∀ db ∈ dbs, ∀ raw ∈ db.raws, ∀ i, db.record_id raw = Except.ok i →
      p i raw = true → (db.resolve raw).isOk = true) :
    iter_records dbs p =
      Except.ok (dbs.map (fun db => goodScan db p)).flatten := by
  rw [iter_records, records_by_xpac_ok dbs p hres]
  rfl

theorem iter_record_ids_ok {ρ : Type} (dbs : List (Store ρ))
    (ids : List String) (h : iter_record_ids dbs = Except.ok ids) :
    ids = (dbs.map storeIds).flatten ∧
      ∀ db ∈ dbs, ∀ raw ∈ db.raws, (db.record_id raw).isOk = true := by
  rw [iter_record_ids] at h
  rcases hc : collectExcept (dbs.map (fun db =>
      collectExcept (db.raws.map db.record_id))) with err | lss
  · rw [hc] at h; simp [Except.map] at h
  · rw [hc] at h
    simp only [Except.map, Except.ok.injEq] at h
    have hall := (collectExcept_eq_ok _ lss hc).2
    have hid : ∀ db ∈ dbs, ∀ raw ∈ db.raws,
        (db.record_id raw).isOk = true := by
      intro db hdb raw hraw
      have hmem : collectExcept (db.raws.map db.record_id) ∈
          dbs.map (fun db => collectExcept (db.raws.map db.record_id)) :=
        List.mem_map_of_mem _ hdb
      have hok := hall _ hmem
      rcases he : collectExcept (db.raws.map db.record_id) with err2 | xs
      · rw [he] at hok; simp [Except.isOk, Except.toBool] at hok
      · exact (collectExcept_eq_ok _ xs he).2 (db.record_id raw)
          (List.mem_map_of_mem _ hraw)
    refine ⟨?_, hid⟩
    have hmap : dbs.map (fun db => collectExcept (db.raws.map db.record_id)) =
        (dbs.map storeIds).map Except.ok := by
      rw [List.map_map]
      apply List.map_congr_left
      intro db hdb
      rw [collectExcept_all_ok _ (fun e he => by
        rcases List.mem_map.mp he with ⟨raw, hraw, hrw⟩
        rw [hrw.symm]
        exact hid db hdb raw hraw)]
      rw [List.filterMap_map]
      rfl
    rw [hmap, collectExcept_map_ok] at hc
    rw [h.symm]
    simp only [Except.ok.injEq] at hc
    rw [hc]

theorem scanStore_filter_ok {ρ : Type} (ri : ρ → Except String String)
    (rv : ρ → Except String Record) (p : String → ρ → Bool) :
    ∀ raws : List ρ,
      scanStore ⟨raws.filter (fun r => (ri r).isOk), ri, rv⟩ p =
        scanStore ⟨raws, ri, rv⟩ p := by
  intro raws
  induction raws with
  | nil => rfl
  | cons r raws ih =>
    simp only [scanStore] at ih ⊢
    rw [List.filter_cons]
    by_cases hok : (ri r).isOk = true
    · rw [if_pos hok]
      simp only [List.filterMap_cons]
      rw [ih]
    · rw [if_neg hok]
      rcases hri : ri r with err | i
      · rw [List.filterMap_cons]
        simp only [hri]
        exact ih
      · rw [hri] at hok
        simp [Except.isOk, Except.toBool] at hok

/-- C1 counterexample: a store holding a single raw record whose identifier
derivation fails. The predicate scan with the always-true predicate
succeeds with an empty per-store result and no fatal exit: the failing
record is silently skipped rather than failing the whole command. -/
theorem scan_id_failure_cx :
    records_by_xpac [badIdStore] (fun _ _ => true) = Except.ok [[]] ∧
    scanExitCode (records_by_xpac [badIdStore] (fun _ _ => true)) = none ∧
    badIdStore.raws ≠ [] ∧
    (badIdStore.record_id ()).isOk = false :=
  ⟨rfl, rfl, by simp [badIdStore], rfl⟩

/-- C1 amended: in the predicate scan, a record whose identifier derivation
fails is silently skipped — deleting all such records from every store
leaves the scan result unchanged, so the failing record neither aborts the
command nor contributes output; in the identifier-only scan, by contrast, a
single derivation failure makes the whole command fail fatally. -/
theorem scan_id_failure_behavior (ρ : Type) (dbs : List (Store ρ))
    (p : String → ρ → Bool) :
    records_by_xpac dbs p =
      records_by_xpac (dbs.map (fun db =>
        Store.mk (db.raws.filter (fun r => (db.record_id r).isOk))
          db.record_id db.resolve)) p ∧
    (∀ db ∈ dbs, ∀ raw ∈ db.raws, (db.record_id raw).isOk = false →
      ∃ e, iter_record_ids dbs = Except.error e ∧
        scanExitCode (iter_record_ids dbs) = some 1) := by
  constructor
  · unfold records_by_xpac
    rw [List.map_map]
    congr 1
    apply List.map_congr_left
    intro db _
    show collectExcept (scanStore db p) =
      collectExcept (scanStore
        (Store.mk (db.raws.filter (fun r => (db.record_id r).isOk))
          db.record_id db.resolve) p)
    rw [scanStore_filter_ok db.record_id db.resolve p db.raws]
  · intro db hdb raw hraw hbad
    rcases collectExcept_has_error (db.raws.map db.record_id)
        (db.record_id raw) (List.mem_map_of_mem _ hraw) hbad
      with ⟨err, herr⟩
    have h2 : collectExcept (db.raws.map db.record_id) ∈
        dbs.map (fun db => collectExcept (db.raws.map db.record_id)) :=
      List.mem_map_of_mem _ hdb
    have h3 : (collectExcept (db.raws.map db.record_id)).isOk = false := by
      rw [herr]; rfl
    rcases collectExcept_has_error _ _ h2 h3 with ⟨e2, he2⟩
    refine ⟨e2, ?_, ?_⟩
    · rw [iter_record_ids, he2]; rfl
    · rw [iter_record_ids, he2]; rfl

theorem mem_flatten_goodScan {ρ : Type} {dbs : List (Store ρ)}
    {p : String → ρ → Bool} {r : Record} :
    r ∈ (dbs.map (fun db => goodScan db p)).flatten ↔
      ∃ db ∈ dbs, ∃ raw ∈ db.raws, ∃ i, db.record_id raw = Except.ok i ∧
        p i raw = true ∧ db.resolve raw = Except.ok r := by
  rw [List.mem_flatten]
  constructor
  · rintro ⟨l, hl, hr⟩
    rcases List.mem_map.mp hl with ⟨db, hdb, rfl⟩
    rcases mem_goodScan.mp hr with ⟨raw, hraw, i, hri, hp, hrv⟩
    exact ⟨db, hdb, raw, hraw, i, hri, hp, hrv⟩
  · rintro ⟨db, hdb, raw, hraw, i, hri, hp, hrv⟩
    exact ⟨goodScan db p, List.mem_map_of_mem _ hdb,
      mem_goodScan.mpr ⟨raw, hraw, i, hri, hp, hrv⟩⟩

/-- C5: for the show command, when no record identifier equals the needle
the lookup yields the fatal not-found outcome with the identifier echoed in
the message and exit code 1; when more than one record matches, the warning
flag is set, the last match in store-selection order is the one kept, and
the outcome is not an abort. -/
theorem show_spec (ρ : Type) (dbs : List (Store ρ)) (needle : String)
    (hres : ∀ db ∈ dbs, ∀ raw ∈ db.raws, (db.resolve raw).isOk = true) :
    ∃ ms, iter_records dbs (fun i _ => i == needle) = Except.ok ms ∧
      ((¬ ∃ db ∈ dbs, needle ∈ storeIds db) →
        ms = [] ∧
        get_record dbs needle =
          Except.ok (ShowResult.notFound ("not found: " ++ needle)) ∧
        showExitCode (ShowResult.notFound ("not found: " ++ needle)) =
          some 1) ∧
      (1 < ms.length →
        ∃ r, ms.getLast? = some r ∧
          get_record dbs needle = Except.ok (ShowResult.found true r) ∧
          showExitCode (ShowResult.found true r) = none) := by
  have hiter := iter_records_ok dbs (fun i _ => i == needle)
    (fun db hdb raw hraw i _ _ => hres db hdb raw hraw)
  refine ⟨(dbs.map (fun db =>
    goodScan db (fun i _ => i == needle))).flatten, hiter, ?_, ?_⟩
  · intro hno
    have hnil : (dbs.map (fun db =>
        goodScan db (fun i _ => i == needle))).flatten = [] := by
      rw [List.eq_nil_iff_forall_not_mem]
      intro r hr
      rcases mem_flatten_goodScan.mp hr with
        ⟨db, hdb, raw, hraw, i, hri, hp, _⟩
      have hi : i = needle := by simpa using hp
      apply hno
      refine ⟨db, hdb, ?_⟩
      rw [storeIds, List.mem_filterMap]
      exact ⟨raw, hraw, by rw [hri]; simp [Except.toOption, hi]⟩
    refine ⟨hnil, ?_, rfl⟩
    rw [get_record, hiter, hnil]
    rfl
  · intro hlen
    have hne : (dbs.map (fun db =>
        goodScan db (fun i _ => i == needle))).flatten ≠ [] := by
      intro h
      rw [h] at hlen
      simp at hlen
    rcases hlast : (dbs.map (fun db =>
        goodScan db (fun i _ => i == needle))).flatten.getLast? with _ | r
    · rw [List.getLast?_eq_none_iff] at hlast
      exact absurd hlast hne
    · refine ⟨r, rfl, ?_, rfl⟩
      rw [get_record, hiter]
      simp only [Except.map, hlast]
      rw [decide_eq_true hlen]

/-- C5 witness: two stores each holding the record x; the scan finds two
matches, the warning flag is set, and the kept record is the last one. -/
theorem show_spec_witness :
    ∃ ms, iter_records [plainStore, plainStore]
        (fun i _ => i == "x") = Except.ok ms ∧
      ((¬ ∃ db ∈ [plainStore, plainStore], "x" ∈ storeIds db) →
        ms = [] ∧
        get_record [plainStore, plainStore] "x" =
          Except.ok (ShowResult.notFound ("not found: " ++ "x")) ∧
        showExitCode (ShowResult.notFound ("not found: " ++ "x")) =
          some 1) ∧
      (1 < ms.length →
        ∃ r, ms.getLast? = some r ∧
          get_record [plainStore, plainStore] "x" =
            Except.ok (ShowResult.found true r) ∧
          showExitCode (ShowResult.found true r) = none) :=
  show_spec String [plainStore, plainStore] "x" (by decide)

/-- C8: for a resolved tag key, the reference finder returns exactly the
deduplicated set of identifiers of records whose identifier lies in the
items namespace and whose itemNameTag field equals the tag key as a typed
string value; records lacking the field or holding another value are
excluded. The hypotheses are the external store contract: resolution
succeeds on every raw record and the resolved identifier agrees with the
derived one. -/
theorem item_refs_spec (ρ : Type) (dbs : List (Store ρ)) (tag : String)
    (hok : ∀ db ∈ dbs, ∀ raw ∈ db.raws, (db.resolve raw).isOk = true)
    (hcons : ∀ db ∈ dbs, ∀ raw ∈ db.raws, ∀ r : Record,
      db.resolve raw = Except.ok r → db.record_id raw = Except.ok r.id) :
    ∃ l, lookup_item_refs dbs tag = Except.ok l ∧ l.Nodup ∧
      (∀ x, x ∈ l ↔ ∃ db ∈ dbs, ∃ raw ∈ db.raws, ∃ r : Record,
        db.resolve raw = Except.ok r ∧ r.id = x ∧
        strStarts x "records/items" = true ∧
        r.data.lookup "itemNameTag" = some (DatabaseValue.Str tag)) := by
  have hiter := iter_records_ok dbs
    (fun i _ => strStarts i "records/items")
    (fun db hdb raw hraw i _ _ => hok db hdb raw hraw)
  refine ⟨((((dbs.map (fun db =>
      goodScan db (fun i _ => strStarts i "records/items"))).flatten.filter
      (fun r => r.data.lookup "itemNameTag" ==
        some (DatabaseValue.Str tag))).map Record.id)).dedup, ?_, ?_, ?_⟩
  · rw [lookup_item_refs, hiter]
    rfl
  · exact List.nodup_dedup _
  · intro x
    rw [List.mem_dedup, List.mem_map]
    constructor
    · rintro ⟨r, hr, rfl⟩
      rw [List.mem_filter] at hr
      rcases mem_flatten_goodScan.mp hr.1 with
        ⟨db, hdb, raw, hraw, i, hri, hp, hrv⟩
      have hid : i = r.id := by
        have h2 := hcons db hdb raw hraw r hrv
        rw [hri] at h2
        exact (Except.ok.injEq _ _).mp h2
      refine ⟨db, hdb, raw, hraw, r, hrv, rfl, by rw [hid.symm]; exact hp, ?_⟩
      have := hr.2
      simpa using this
    · rintro ⟨db, hdb, raw, hraw, r, hrv, rfl, hpre, hfield⟩
      refine ⟨r, ?_, rfl⟩
      rw [List.mem_filter]
      constructor
      · exact mem_flatten_goodScan.mpr
          ⟨db, hdb, raw, hraw, r.id, hcons db hdb raw hraw r hrv, hpre, hrv⟩
      · simpa using hfield

/-- C8 witness: a single store with one item-namespace record carrying
itemNameTag t1 and one record outside the namespace; the finder returns
exactly the item record identifier. -/
theorem item_refs_spec_witness :
    ∃ l, lookup_item_refs [itemStore] "t1" = Except.ok l ∧ l.Nodup ∧
      (∀ x, x ∈ l ↔ ∃ db ∈ [itemStore], ∃ raw ∈ db.raws, ∃ r : Record,
        db.resolve raw = Except.ok r ∧ r.id = x ∧
        strStarts x "records/items" = true ∧
        r.data.lookup "itemNameTag" = some (DatabaseValue.Str "t1")) :=
  item_refs_spec String [itemStore] "t1" (by decide)
    (by
      intro db hdb raw hraw r hr
      rw [List.mem_singleton] at hdb
      subst hdb
      simp only [itemStore] at hr ⊢
      injection hr with h
      subst h
      rfl)

theorem goodScan_eq_pred_length {ρ : Type} (ri : ρ → Except String String)
    (rv : ρ → Except String Record) (id : String) :
    ∀ raws : List ρ, (∀ raw ∈ raws, (rv raw).isOk = true) →
      (storeIds ⟨raws, ri, rv⟩).Nodup →
      (goodScan ⟨raws, ri, rv⟩ (fun i _ => i == id)).length =
        if id ∈ storeIds ⟨raws, ri, rv⟩ then 1 else 0 := by
  intro raws
  induction raws with
  | nil => intro _ _; simp [goodScan, storeIds]
  | cons r raws ih =>
    intro hres hnd
    have hres2 : ∀ raw ∈ raws, (rv raw).isOk = true :=
      fun raw hraw => hres raw (by simp [hraw])
    rcases hri : ri r with err | i
    · have hs : storeIds ⟨r :: raws, ri, rv⟩ = storeIds ⟨raws, ri, rv⟩ := by
        simp [storeIds, List.filterMap_cons, hri, Except.toOption]
      have hg : goodScan ⟨r :: raws, ri, rv⟩ (fun i _ => i == id) =
          goodScan ⟨raws, ri, rv⟩ (fun i _ => i == id) := by
        simp [goodScan, List.filterMap_cons, hri]
      rw [hs] at hnd ⊢
      rw [hg]
      exact ih hres2 hnd
    · have hs : storeIds ⟨r :: raws, ri, rv⟩ =
          i :: storeIds ⟨raws, ri, rv⟩ := by
        simp [storeIds, List.filterMap_cons, hri, Except.toOption]
      rw [hs] at hnd ⊢
      rw [List.nodup_cons] at hnd
      by_cases hieq : (i == id) = true
      · have hi : i = id := by simpa using hieq
        rcases hrv : rv r with err2 | rec
        · have := hres r (by simp)
          rw [hrv] at this
          simp [Except.isOk, Except.toBool] at this
        · have hg : goodScan ⟨r :: raws, ri, rv⟩ (fun i _ => i == id) =
              rec :: goodScan ⟨raws, ri, rv⟩ (fun i _ => i == id) := by
            simp [goodScan, List.filterMap_cons, hri, hi, hrv,
              Except.toOption]
          rw [hg]
          have hnotmem : id ∉ storeIds ⟨raws, ri, rv⟩ := by
            rw [hi.symm]; exact hnd.1
          rw [List.length_cons, ih hres2 hnd.2, if_neg hnotmem,
            if_pos (by simp [hi])]
      · have hine : ¬ i = id := by simpa using hieq
        have hg : goodScan ⟨r :: raws, ri, rv⟩ (fun i _ => i == id) =
            goodScan ⟨raws, ri, rv⟩ (fun i _ => i == id) := by
          simp [goodScan, List.filterMap_cons, hri, hine]
        rw [hg, ih hres2 hnd.2]
        have hne : id ∈ i :: storeIds ⟨raws, ri, rv⟩ ↔
            id ∈ storeIds ⟨raws, ri, rv⟩ := by
          simp only [List.mem_cons]
          constructor
          · rintro (rfl | h)
            · simp at hieq
            · exact h
          · intro h; exact Or.inr h
        by_cases hmem : id ∈ storeIds ⟨raws, ri, rv⟩
        · rw [if_pos hmem, if_pos (hne.mpr hmem)]
        · rw [if_neg hmem, if_neg (fun hc => hmem (hne.mp hc))]

/-- C9: every identifier produced by the identifier-only scan, used as an
exact-equality predicate in the record scan over the same selection set,
matches at least one store and yields exactly one resolved record per
store containing that identifier and none per store not containing it,
assuming the stores resolve every raw record and have per-store unique
identifiers. -/
theorem roundtrip_spec (ρ : Type) (dbs : List (Store ρ))
    (ids : List String) (id : String)
    (hids : iter_record_ids dbs = Except.ok ids) (hmem : id ∈ ids)
    (hres : ∀ db ∈ dbs, ∀ raw ∈ db.raws, (db.resolve raw).isOk = true)
    (huniq : ∀ db ∈ dbs, (storeIds db).Nodup) :
    ∃ rss, records_by_xpac dbs (fun i _ => i == id) = Except.ok rss ∧
      List.Forall₂ (fun rs db =>
        rs.length = if id ∈ storeIds db then 1 else 0) rss dbs ∧
      ∃ db ∈ dbs, id ∈ storeIds db := by
  rcases iter_record_ids_ok dbs ids hids with ⟨hflat, _⟩
  refine ⟨dbs.map (fun db => goodScan db (fun i _ => i == id)),
    records_by_xpac_ok dbs _ (fun db hdb raw hraw i _ _ =>
      hres db hdb raw hraw), ?_, ?_⟩
  · rw [List.forall₂_map_left_iff]
    rw [List.forall₂_same]
    intro db hdb
    exact goodScan_eq_pred_length db.record_id db.resolve id db.raws
      (hres db hdb) (huniq db hdb)
  · rw [hflat] at hmem
    rcases List.mem_flatten.mp hmem with ⟨l, hl, hid⟩
    rcases List.mem_map.mp hl with ⟨db, hdb, rfl⟩
    exact ⟨db, hdb, hid⟩

/-- C9 witness: the selection set of the two example stores, with the
identifier x taken from the identifier-only scan. -/
theorem roundtrip_spec_witness :
    ∃ rss, records_by_xpac [plainStore, itemStore]
        (fun i _ => i == "x") = Except.ok rss ∧
      List.Forall₂ (fun rs db =>
        rs.length = if "x" ∈ storeIds db then 1 else 0)
        rss [plainStore, itemStore] ∧
      ∃ db ∈ [plainStore, itemStore], "x" ∈ storeIds db :=
  roundtrip_spec String [plainStore, itemStore]
    ["x", "records/items/a", "other/x"] "x"
    rfl (by decide) (by decide) (by decide)

end Gddb
